import Mathlib

/-!
Verification of the homepage build configuration (dodo.py) and of the
incremental build executor it runs under.

The first part embeds dodo.py: path helpers mirroring pathlib, the
configuration data model, the task definitions and generators, and the
feed builder.  The second part models the build executor (task graph,
staleness evaluation, scheduling, action invocation, clean) from the
specification, since the executor itself is an external tool and its
code is not among the sources.
-/

namespace Homepage

/-! ## Path helpers (mirroring pathlib semantics used by dodo.py)

All helpers recurse structurally over character lists so that they
evaluate by kernel reduction on concrete paths. -/

/-- Split a character list at every slash (the components of a path,
like splitting on "/"). -/
def splitOnSlash : List Char → List (List Char)
  | [] => [[]]
  | x :: xs =>
    let r := splitOnSlash xs
    if x = '/' then [] :: r
    else match r with
      | [] => [[x]]
      | h :: t => (x :: h) :: t

/-- Join path components with slashes (inverse of `splitOnSlash`). -/
def joinSlash : List (List Char) → List Char
  | [] => []
  | [x] => x
  | x :: xs => x ++ '/' :: joinSlash xs

/-- Final component of a path with components separated by a slash
(pathlib `Path.name`). -/
def pathName (p : String) : String :=
  String.mk ((splitOnSlash p.toList).getLastD [])

/-- Index of the last occurrence of a character in a list, if any. -/
def lastIdxOf (c : Char) : List Char → Option Nat
  | [] => none
  | x :: xs =>
    match lastIdxOf c xs with
    | some i => some (i + 1)
    | none => if x = c then some 0 else none

/-- pathlib `Path.suffix`: the extension of the final component.  It is
the part of the name from its last dot onward, provided that dot is
neither the first nor the last character of the name; otherwise it is
empty. -/
def pathSuffix (p : String) : String :=
  let name := pathName p
  let cs := name.toList
  match lastIdxOf '.' cs with
  | none => ""
  | some i => if 0 < i ∧ i < cs.length - 1 then String.mk (cs.drop i) else ""

/-- pathlib `Path.with_suffix`: drop the existing suffix (if any) of the
final component and append the new suffix. -/
def withSuffix (p suf : String) : String :=
  let s := pathSuffix p
  if s = "" then p ++ suf
  else String.mk (p.toList.take (p.toList.length - s.toList.length)) ++ suf

/-- Path join with a slash (pathlib `/` operator on relative paths). -/
def joinP (a b : String) : String := a ++ "/" ++ b

/-- pathlib `relative_to` for the case used in dodo.py: the path is the
base directory joined with a relative part. -/
def relTo (base p : String) : String :=
  String.mk (p.toList.drop (base.toList.length + 1))

/-- Parent directory of a path (pathlib `Path.parent` as a string). -/
def parentDir (p : String) : String :=
  String.mk (joinSlash (splitOnSlash p.toList).dropLast)

/-- Does the string end with the given suffix (fnmatch of a pattern
star followed by the suffix)? -/
def endsWithS (s suf : String) : Bool :=
  decide (suf.toList.length ≤ s.toList.length)
  && decide (s.toList.drop (s.toList.length - suf.toList.length) = suf.toList)

/-- Does the string start with the given first part? -/
def startsWithS (s pre : String) : Bool :=
  decide (s.toList.take pre.toList.length = pre.toList)

/-! ## Configuration data model (conf.yaml as consumed by dodo.py) -/

/-- One entry of `conf['entries']`: source path, title, stable id and the
optional published/updated timestamps. -/
structure Entry where
  src : String
  title : String
  id : String
  published : Option String
  updated : Option String
deriving Repr, DecidableEq

structure Author where
  name : String
  email : String
deriving Repr, DecidableEq

/-- The configuration read from conf.yaml, restricted to the fields
dodo.py uses. -/
structure Conf where
  entries : List Entry
  link : String
  id : String
  author : Author
deriving Repr, DecidableEq

/-! ## Directory constants from dodo.py -/

def build_dir : String := "build"
def src_html_dir : String := "src_html"
def src_rst_dir : String := "src_rst"
def src_scss_dir : String := "src_scss"
def src_static_dir : String := "src_static"
def rst_tmpl_path : String := joinP src_html_dir "_rst.html"
def feed_path : String := joinP build_dir "index.xml"

/-- DOIT_CONFIG from dodo.py (num_process comes from the environment). -/
structure DoitConfig where
  backend : String
  default_tasks : List String
  verbosity : Nat
  num_process : Nat
deriving Repr, DecidableEq

def DOIT_CONFIG (np : Nat) : DoitConfig :=
  { backend := "sqlite3"
    default_tasks := ["build"]
    verbosity := 2
    num_process := np }

/-! ## Actions and task definitions -/

/-- The actions appearing in dodo.py task declarations.  Each carries the
arguments bound when the task dictionary is yielded (for the page
builders this includes the entry and the computed root path parameter). -/
inductive PAction where
  | buildMako (src dst : String) (entry : Entry) (pfx : String)
  | buildRst (src dst : String) (entry : Entry) (pfx : String)
  | buildScss (src dst : String)
  | mkdirParents (dir : String)
  | copy2 (src dst : String)
  | buildFeed
  | cmd (c : String)
  | rmtree (dir : String)
deriving Repr, DecidableEq

/-- A task dictionary returned by a plain (non generator) task function:
`actions` is `none` when dodo.py declares `'actions': None`. -/
structure TaskDef where
  actions : Option (List PAction)
  task_dep : List String
deriving Repr, DecidableEq

/-- A sub-task dictionary yielded by a generator task function. -/
structure SubTask where
  name : String
  actions : List PAction
  targets : List String
  task_dep : List String
deriving Repr, DecidableEq

/-- task_clean_all from dodo.py: a single rmtree of the build dir. -/
def task_clean_all : TaskDef :=
  { actions := some [PAction.rmtree build_dir], task_dep := [] }

/-- task_build from dodo.py: no actions, task_dep on pages, feed, sass
and static. -/
def task_build : TaskDef :=
  { actions := none, task_dep := ["pages", "feed", "sass", "static"] }

/-- task_feed from dodo.py: one action (_build_feed), task_dep on pages. -/
def task_feed : TaskDef :=
  { actions := some [PAction.buildFeed], task_dep := ["pages"] }

/-- task_deps from dodo.py: a single shell command. -/
def task_deps : TaskDef :=
  { actions := some [PAction.cmd "yarn install --silent"], task_dep := [] }

/-- The string of `depth` repetitions of "../" (the root path parameter
computed in task_pages). -/
def dotdots : Nat → String
  | 0 => ""
  | n + 1 => "../" ++ dotdots n

/-- The sub-task task_pages yields for one configuration entry, when the
entry's source suffix is supported; `none` mirrors the
`raise Exception('unsupported entry source')` branch. -/
def pageSubTask (e : Entry) : Option SubTask :=
  let src0 := e.src
  let dst := withSuffix (joinP build_dir src0) ".html"
  let depth := (splitOnSlash (relTo build_dir dst).toList).length - 1
  let pfx := dotdots depth
  if pathSuffix src0 = ".html" then
    some { name := dst
           actions := [PAction.buildMako (joinP src_html_dir src0) dst e pfx]
           targets := [dst]
           task_dep := [] }
  else if pathSuffix src0 = ".rst" then
    some { name := dst
           actions := [PAction.buildRst (joinP src_rst_dir src0) dst e pfx]
           targets := [dst]
           task_dep := [] }
  else none

/-- task_pages from dodo.py, run as a generator over the configuration
entries: the list of yielded sub-tasks together with the error raised,
if any.  Reaching an entry whose source suffix is neither '.html' nor
'.rst' raises, so nothing is yielded for it and no later entry is
reached. -/
def pagesRun : List Entry → List SubTask × Option String
  | [] => ([], none)
  | e :: rest =>
    let src0 := e.src
    let dst := withSuffix (joinP build_dir src0) ".html"
    let depth := (splitOnSlash (relTo build_dir dst).toList).length - 1
    let pfx := dotdots depth
    if pathSuffix src0 = ".html" then
      let s : SubTask :=
        { name := dst
          actions := [PAction.buildMako (joinP src_html_dir src0) dst e pfx]
          targets := [dst]
          task_dep := [] }
      let r := pagesRun rest
      (s :: r.1, r.2)
    else if pathSuffix src0 = ".rst" then
      let s : SubTask :=
        { name := dst
          actions := [PAction.buildRst (joinP src_rst_dir src0) dst e pfx]
          targets := [dst]
          task_dep := [] }
      let r := pagesRun rest
      (s :: r.1, r.2)
    else
      ([], some "unsupported entry source")

/-- _get_scss_mappings from dodo.py, over the relative paths of the
files found under src_scss (rglob('*.scss') keeps names ending in
'.scss'; names starting with an underscore are skipped). -/
def scssMappings : List String → List (String × String)
  | [] => []
  | rel :: rest =>
    if endsWithS (pathName rel) ".scss" then
      if startsWithS (pathName rel) "_" then scssMappings rest
      else (joinP src_scss_dir rel, joinP build_dir (withSuffix rel ".css"))
             :: scssMappings rest
    else scssMappings rest

/-- The sub-task task_sass yields for one (src, dst) mapping. -/
def sassSubTask (m : String × String) : SubTask :=
  { name := m.2
    actions := [PAction.buildScss m.1 m.2]
    targets := [m.2]
    task_dep := ["deps"] }

/-- task_sass from dodo.py, run as a generator over the scss mappings. -/
def task_sass (files : List String) : List SubTask :=
  (scssMappings files).foldr (fun m acc => sassSubTask m :: acc) []

/-- _get_static_mappings from dodo.py, over the (relative path, is_dir)
entries found under src_static by rglob('*'): directories are skipped. -/
def staticMappings : List (String × Bool) → List (String × String)
  | [] => []
  | e :: rest =>
    if e.2 then staticMappings rest
    else (joinP src_static_dir e.1, joinP build_dir e.1) :: staticMappings rest

/-- The sub-task task_static yields for one (src, dst) mapping: first
action creates the destination directory, second copies the file. -/
def staticSubTask (m : String × String) : SubTask :=
  { name := m.2
    actions := [PAction.mkdirParents (parentDir m.2), PAction.copy2 m.1 m.2]
    targets := [m.2]
    task_dep := [] }

/-- task_static from dodo.py, run as a generator over the static
mappings. -/
def task_static (entries : List (String × Bool)) : List SubTask :=
  (staticMappings entries).foldr (fun m acc => staticSubTask m :: acc) []

/-! ## The feed builder (_build_feed from dodo.py)

The extraction of the main element from an already built page (file
read, lxml parse, xpath, serialize) is abstracted as a function
`contentOf` from the built page path to the serialized content. -/

/-- Lexicographic comparison of character lists (how the interpreter
compares the timestamp strings of _build_feed), written structurally so
it evaluates by kernel reduction. -/
def strLtB : List Char → List Char → Bool
  | [], [] => false
  | [], _ :: _ => true
  | _ :: _, [] => false
  | a :: as, b :: bs =>
    if a < b then true else if b < a then false else strLtB as bs

/-- Lexicographic strict comparison of strings. -/
def strLt (a b : String) : Bool := strLtB a.toList b.toList

/-- The `<entry>` string _build_feed appends for one included entry
(`pub` is the entry's published value). -/
def feedEntryStr (c : Conf) (contentOf : String → String) (i : Entry)
    (pub : String) : String :=
  let srcPath := withSuffix (joinP build_dir i.src) ".html"
  let link := relTo build_dir srcPath
  let content := contentOf srcPath
  let e1 := "<entry>\n<title>" ++ i.title ++ "</title>\n<link href=\""
    ++ c.link ++ "/" ++ link ++ "\"/>\n<id>urn:uuid:" ++ i.id
    ++ "</id>\n<published>" ++ pub ++ "</published>\n"
  let e2 := match i.updated with
    | some u => e1 ++ "<updated>" ++ u ++ "</updated>\n"
    | none => e1
  e2 ++ "<content type=\"xhtml\">\n" ++ content ++ "\n</content>\n</entry>\n"

/-- The loop of _build_feed: entries without a published key are
skipped; otherwise the running `updated` value is raised first by the
entry's published value, then by its updated value if present, and the
entry string is appended. -/
def feedFold (c : Conf) (contentOf : String → String) :
    List Entry → String → List String → String × List String
  | [], updated, acc => (updated, acc)
  | i :: rest, updated, acc =>
    match i.published with
    | none => feedFold c contentOf rest updated acc
    | some pub =>
      let u1 := if strLt updated pub then pub else updated
      let u2 := match i.updated with
        | some up => if strLt u1 up then up else u1
        | none => u1
      feedFold c contentOf rest u2 (acc ++ [feedEntryStr c contentOf i pub])

/-- The final `updated` value and entry strings computed by _build_feed
over the configured entries. -/
def buildFeedResult (c : Conf) (contentOf : String → String) :
    String × List String :=
  feedFold c contentOf c.entries "" []

/-- The full Atom document _build_feed writes to build/index.xml. -/
def buildFeedText (c : Conf) (contentOf : String → String) : String :=
  let r := buildFeedResult c contentOf
  "<?xml version=\"1.0\" encoding=\"utf-8\"?>\n"
  ++ "<feed xmlns=\"http://www.w3.org/2005/Atom\">\n"
  ++ "<title>Bozo Kopic home page</title>\n"
  ++ "<link href=\"" ++ c.link ++ "\"/>\n"
  ++ "<link href=\"" ++ pathName feed_path ++ "\" rel=\"self\"/>\n"
  ++ "<id>urn:uuid:" ++ c.id ++ "</id>\n"
  ++ "<updated>" ++ r.1 ++ "</updated>\n"
  ++ "<author>\n"
  ++ "<name>" ++ c.author.name ++ "</name>\n"
  ++ "<email>" ++ c.author.email ++ "</email>\n"
  ++ "</author>\n"
  ++ String.join r.2
  ++ "</feed>\n"

/-- The configuration entries the feed includes: those with a published
key, in configuration order. -/
def includedEntries (c : Conf) : List Entry :=
  c.entries.filter (fun i => i.published.isSome)

/-- All published and updated values of the included entries, in the
order the loop of _build_feed compares them. -/
def pubVals (c : Conf) : List String :=
  (includedEntries c).flatMap (fun i => i.published.toList ++ i.updated.toList)

/-- Running lexicographic maximum, seeded with the empty string, written
exactly as the comparisons of _build_feed perform it. -/
def lexMax (l : List String) : String :=
  l.foldl (fun a v => if strLt a v then v else a) ""

/-! ## The build executor

The executor (the tool interpreting dodo.py) is not among the sources,
so it is modelled from the specification: build nodes with targets,
file dependencies and predecessor edges; a staleness evaluator; a
scheduler walking the nodes in dependency order; per-target build
state updated on success; and failure propagating downstream as
skipped. -/

/-- Modelled from the spec: a concrete build node produced by the
Dependency Graph Builder — unique id, owning task name, whether it has
declared actions, the target paths it produces, the leaf files its
fingerprint covers, and its predecessor node ids. -/
structure BNode where
  id : String
  task : String
  hasActions : Bool
  targets : List String
  fileDeps : List String
  preds : List String
deriving Repr, DecidableEq

/-- Modelled from the spec: the file system as the executor sees it — a
presence flag and a content version per path.  Actions change presence;
content versions of source files change only between runs. -/
structure Fs where
  present : String → Bool
  version : String → Nat

/-- Modelled from the spec: the persisted build state, mapping a target
path to the fingerprint recorded when it was last produced. -/
def BuildState := String → Option (List Nat)

/-- Modelled from the spec: a node's fingerprint is the digest of its
input files' current contents. -/
def fingerprint (n : BNode) (fs : Fs) : List Nat :=
  n.fileDeps.map fs.version

/-- Modelled from the spec: a node is stale when a declared target is
missing, or the recorded fingerprint of a target differs from the
current one, or a predecessor node ran in this build. -/
def isStale (n : BNode) (fs : Fs) (st : BuildState)
    (ranSoFar : List String) : Bool :=
  decide (∃ t ∈ n.targets, fs.present t = false)
  || decide (∃ t ∈ n.targets, st t ≠ some (fingerprint n fs))
  || decide (∃ p ∈ n.preds, p ∈ ranSoFar)

inductive Status where
  | done
  | failed
  | skipped
deriving Repr, DecidableEq

def setStatus (st : String → Option Status) (i : String) (s : Status) :
    String → Option Status :=
  fun q => if q = i then some s else st q

/-- Modelled from the spec: the scheduler's mutable view of one run —
file system, build state, ids of nodes that executed actions so far,
and node statuses. -/
structure RunState where
  fs : Fs
  st : BuildState
  ran : List String
  status : String → Option Status

/-- Executing a node makes its targets present. -/
def execFs (n : BNode) (fs : Fs) : Fs :=
  { fs with present := fun t => if t ∈ n.targets then true else fs.present t }

/-- On success the produced targets' fingerprints are written to the
build state. -/
def execSt (n : BNode) (fs : Fs) (st : BuildState) : BuildState :=
  fun t => if t ∈ n.targets then some (fingerprint n fs) else st t

/-- Modelled from the spec: processing one node whose predecessors have
all been processed.  A node with a failed or skipped predecessor is
skipped; a stale node with actions executes them (`ok` tells whether
they succeed), updating build state and file system on success and
leaving the build state untouched on failure; any other node
transitions directly to done. -/
def processNode (ok : String → Bool) (rs : RunState) (n : BNode) : RunState :=
  if ∃ p ∈ n.preds, rs.status p = some Status.failed
      ∨ rs.status p = some Status.skipped then
    { rs with status := setStatus rs.status n.id Status.skipped }
  else if isStale n rs.fs rs.st rs.ran = true ∧ n.hasActions = true then
    if ok n.id = true then
      { fs := execFs n rs.fs
        st := execSt n rs.fs rs.st
        ran := rs.ran ++ [n.id]
        status := setStatus rs.status n.id Status.done }
    else
      { rs with
        ran := rs.ran ++ [n.id]
        status := setStatus rs.status n.id Status.failed }
  else
    { rs with status := setStatus rs.status n.id Status.done }

/-- Modelled from the spec: one build run over nodes listed in
dependency order. -/
def runNodes (ok : String → Bool) (nodes : List BNode) (fs0 : Fs)
    (st0 : BuildState) : RunState :=
  nodes.foldl (processNode ok) ⟨fs0, st0, [], fun _ => none⟩

/-- The action oracle of a run in which every executed action
succeeds. -/
def okTrue : String → Bool := fun _ => true

/-- Source files mentioned by an action (the graph builder associates
them to the node as its file dependencies). -/
def actionSrcs : PAction → List String
  | PAction.buildMako s _ _ _ => [s]
  | PAction.buildRst s _ _ _ => [s]
  | PAction.buildScss s _ => [s]
  | PAction.copy2 s _ => [s]
  | _ => []

/-- Modelled from the spec: the Dependency Graph Builder applied to the
dodo.py tasks.  Each generator sub-task becomes one node (its file
dependency being the source file its action reads, as in the spec's
gen_page scenario; dodo.py itself declares no file_dep); a task_dep on
a task name resolves to edges to all of that task's nodes; the nodes
are listed in dependency order. -/
def homepageNodes (c : Conf) (scssFiles : List String)
    (staticEntries : List (String × Bool)) : List BNode :=
  let pageSts := (pagesRun c.entries).1
  let pageNodes := pageSts.map (fun s =>
    { id := s.name, task := "pages", hasActions := true, targets := s.targets
      fileDeps := s.actions.flatMap actionSrcs, preds := [] : BNode })
  let sassNodes := (task_sass scssFiles).map (fun s =>
    { id := s.name, task := "sass", hasActions := true, targets := s.targets
      fileDeps := s.actions.flatMap actionSrcs
      preds := s.task_dep.flatMap (fun d => if d = "deps" then ["deps"] else [])
      : BNode })
  let staticNodes := (task_static staticEntries).map (fun s =>
    { id := s.name, task := "static", hasActions := true, targets := s.targets
      fileDeps := s.actions.flatMap actionSrcs, preds := [] : BNode })
  let resolve : String → List String := fun d =>
    if d = "pages" then pageNodes.map (fun n => n.id)
    else if d = "feed" then ["feed"]
    else if d = "sass" then sassNodes.map (fun n => n.id)
    else if d = "static" then staticNodes.map (fun n => n.id)
    else if d = "deps" then ["deps"]
    else []
  let depsNode : BNode :=
    { id := "deps", task := "deps", hasActions := true, targets := []
      fileDeps := [], preds := [] }
  let feedNode : BNode :=
    { id := "feed", task := "feed", hasActions := true, targets := []
      fileDeps := [], preds := task_feed.task_dep.flatMap resolve }
  let buildNode : BNode :=
    { id := "build", task := "build", hasActions := task_build.actions.isSome
      targets := [], fileDeps := [], preds := task_build.task_dep.flatMap resolve }
  [depsNode] ++ pageNodes ++ [feedNode] ++ sassNodes ++ staticNodes ++ [buildNode]

/-- Bumping the content version of one file between runs (the
modification of one leaf source file). -/
def bumpV (f : String) (v : String → Nat) : String → Nat :=
  fun p => if p = f then v p + 1 else v p

def bumpFs (f : String) (fs : Fs) : Fs :=
  { fs with version := bumpV f fs.version }

/-- The nodes downstream-reachable from the nodes whose file
dependencies contain `f`, collected in dependency order and restricted
to nodes that execute actions: a node is collected when it has actions
and either depends on `f` directly or has a predecessor already
collected. -/
def affectedFrom (f : String) (nodes : List BNode) (acc : List String) :
    List String :=
  nodes.foldl (fun a n =>
    if n.hasActions = true ∧ (f ∈ n.fileDeps ∨ ∃ p ∈ n.preds, p ∈ a)
    then a ++ [n.id] else a) acc

def affected (f : String) (nodes : List BNode) : List String :=
  affectedFrom f nodes []

/-! ## Clean and CLI dispatch -/

/-- Declared targets of the tasks among `names`. -/
def cleanTargets (names : List String) (nodes : List BNode) : List String :=
  (nodes.filter (fun n => names.contains n.task)).flatMap (fun n => n.targets)

/-- Removal of one target path: the file disappears and its build state
entry is deleted. -/
def cleanStep (a : Fs × BuildState) (t : String) : Fs × BuildState :=
  ({ a.1 with present := fun p => if p = t then false else a.1.present p },
   fun p => if p = t then none else a.2 p)

/-- Modelled from the spec: the clean command over the expanded nodes —
for each node of a named task, each declared target is removed from the
file system and its recorded build state entry is deleted. -/
def clean (names : List String) (nodes : List BNode) (fs : Fs)
    (st : BuildState) : Fs × BuildState :=
  (nodes.filter (fun n => names.contains n.task)).foldl
    (fun acc n => n.targets.foldl cleanStep acc) (fs, st)

/-- Modelled from the spec: the build command runs the requested tasks,
defaulting to the configured default tasks when none are named. -/
def requestedTasks (cfg : DoitConfig) (args : List String) : List String :=
  if args.isEmpty then cfg.default_tasks else args

/-! ## The action invoker

Modelled from the spec: actions of one node execute strictly in
declared order; the first error aborts the rest and the node is marked
failed with the captured error.  The world the actions act on is a
small file system (directories plus files carrying a content version);
the effects and failure conditions of the individual actions mirror
what the corresponding dodo.py action functions do. -/

/-- File system acted on by a node's actions: existing directories and
files (a file carries a content version that copying preserves). -/
structure WFs where
  dirs : List String
  files : List (String × Nat)
deriving Repr, DecidableEq

/-- The directory and all its ancestors, created by
mkdir(parents=True). -/
def dirChain (d : String) : List String :=
  let parts := splitOnSlash d.toList
  (List.range parts.length).map
    (fun k => String.mk (joinSlash (parts.take (k + 1))))

inductive ActStatus where
  | done
  | failed (err : String)
deriving Repr, DecidableEq

/-- One action's effect on the world, or the error it raises.
mkdir(parents=True, exist_ok=True) always succeeds and creates the
directory chain; copy2 fails when the source file or the destination
directory is missing; the builder actions fail when their source is
missing and otherwise create the destination directory and write the
destination file; the external command is modelled without an effect;
rmtree(ignore_errors=True) always succeeds and removes the subtree. -/
def applyAction : PAction → WFs → Except String WFs
  | PAction.mkdirParents d, w => Except.ok { w with dirs := w.dirs ++ dirChain d }
  | PAction.copy2 s d, w =>
    match w.files.lookup s with
    | none => Except.error ("No such file or directory: " ++ s)
    | some v =>
      if w.dirs.contains (parentDir d) then
        Except.ok { w with files := (d, v) :: w.files }
      else Except.error ("No such file or directory: " ++ d)
  | PAction.buildMako s d _ _, w =>
    match w.files.lookup s with
    | none => Except.error ("template lookup failed: " ++ s)
    | some v => Except.ok { dirs := w.dirs ++ dirChain (parentDir d)
                            files := (d, v) :: w.files }
  | PAction.buildRst s d _ _, w =>
    match w.files.lookup s with
    | none => Except.error ("cannot read source: " ++ s)
    | some v => Except.ok { dirs := w.dirs ++ dirChain (parentDir d)
                            files := (d, v) :: w.files }
  | PAction.buildScss s d, w =>
    match w.files.lookup s with
    | none => Except.error ("sass failed: " ++ s)
    | some v => Except.ok { dirs := w.dirs ++ dirChain (parentDir d)
                            files := (d, v) :: w.files }
  | PAction.buildFeed, w => Except.ok { w with files := (feed_path, 0) :: w.files }
  | PAction.cmd _, w => Except.ok w
  | PAction.rmtree d, w =>
    Except.ok { dirs := w.dirs.filter
                  (fun p => !(p = d || (d ++ "/").isPrefixOf p))
                files := w.files.filter
                  (fun f => !(f.1 = d || (d ++ "/").isPrefixOf f.1)) }

/-- Sequencing of actions that stops at the first error. -/
def applyAll : List PAction → WFs → Except String WFs
  | [], w => Except.ok w
  | a :: rest, w =>
    match applyAction a w with
    | Except.error e => Except.error e
    | Except.ok w2 => applyAll rest w2

/-- Modelled from the spec: the invoker executes the node's actions in
declared order; the first error aborts the remaining actions and the
node is marked failed with the captured error. -/
def invoke : List PAction → WFs → WFs × ActStatus
  | [], w => (w, ActStatus.done)
  | a :: rest, w =>
    match applyAction a w with
    | Except.error e => (w, ActStatus.failed e)
    | Except.ok w2 => invoke rest w2

/-! ## Structural side conditions of a well formed node list -/

/-- Two nodes own disjoint sets of target paths (the target conflict
rule of the graph builder makes this hold for every built graph). -/
def TargetsDisjoint (a b : BNode) : Prop :=
  ∀ t ∈ a.targets, t ∉ b.targets

instance : DecidableRel TargetsDisjoint :=
  fun a b => inferInstanceAs (Decidable (∀ t ∈ a.targets, t ∉ b.targets))

/-- All statuses recorded so far are done (no failure happened). -/
def GoodStatuses (st : String → Option Status) : Prop :=
  ∀ p, st p = none ∨ st p = some Status.done

/-! ## Concrete fixtures used by the witnesses -/

def wEntryA : Entry :=
  { src := "a.rst", title := "A", id := "aaaa"
    published := some "2024-01-02", updated := some "2024-03-04" }

def wEntryB : Entry :=
  { src := "b.html", title := "B", id := "bbbb"
    published := none, updated := none }

def wConf : Conf :=
  { entries := [wEntryA, wEntryB], link := "https://example.org", id := "cccc"
    author := { name := "Bozo", email := "bozo@example.org" } }

def wNodes : List BNode :=
  homepageNodes wConf ["main.scss"] [("img/x.png", false)]

def wFs0 : Fs := { present := fun _ => false, version := fun _ => 0 }

def wSt0 : BuildState := fun _ => none

def wBuildNode : BNode := wNodes.getLastD ⟨"", "", false, [], [], []⟩

def wAllDone : RunState := ⟨wFs0, wSt0, [], fun _ => some Status.done⟩

def wFeedNode : BNode := (wNodes.drop 3).headD ⟨"", "", false, [], [], []⟩

def wDepsNode : BNode := wNodes.headD ⟨"", "", false, [], [], []⟩

def wEntryBad : Entry :=
  { src := "c.txt", title := "C", id := "dddd", published := none, updated := none }

def wContent : String → String := fun _ => "<main>x</main>"

def wStaticSub : SubTask :=
  (task_static [("img/x.png", false)]).headD ⟨"", [], [], []⟩

/-- The values the loop of _build_feed folds into `updated` for one
entry: nothing when the entry has no published key, otherwise its
published value followed by its updated value when present. -/
def foldVals (i : Entry) : List String :=
  match i.published with
  | none => []
  | some p => p :: i.updated.toList

/-! ## Theorems -/

/-- C7: with no task names on the command line the executor falls back
to the configured default tasks, and dodo.py configures exactly the
task named "build" as the default. -/
theorem default_task_is_build (np : Nat) :
    (DOIT_CONFIG np).default_tasks = ["build"]
    ∧ requestedTasks (DOIT_CONFIG np) [] = ["build"] :=
  ⟨rfl, rfl⟩

/-- C4: the build task declares no actions and a task_dep on pages,
feed, sass and static, and in the executor a node with no actions
whose predecessors are all done transitions directly to done, executing
nothing (the run state is unchanged apart from the recorded status). -/
theorem build_task_pure_aggregation :
    task_build.actions = none
    ∧ task_build.task_dep = ["pages", "feed", "sass", "static"]
    ∧ ∀ (ok : String → Bool) (rs : RunState) (n : BNode),
        n.hasActions = false →
        (∀ p ∈ n.preds, rs.status p = some Status.done) →
        processNode ok rs n
          = { rs with status := setStatus rs.status n.id Status.done } := by
  refine ⟨rfl, rfl, ?_⟩
  intro ok rs n hA hP
  unfold processNode
  rw [if_neg, if_neg]
  · rintro ⟨h1, h2⟩
    rw [hA] at h2
    exact Bool.false_ne_true h2
  · rintro ⟨p, hp, hor⟩
    have hd := hP p hp
    rcases hor with h | h <;> rw [hd] at h <;> exact Option.some.inj h |> fun q => by
      cases q

/-- Witness for C4: in the concrete homepage graph the build node has
no actions, and processing it in a state where every predecessor is
done only records its status as done. -/
theorem build_task_pure_aggregation_witness :
    wBuildNode.hasActions = false
    ∧ processNode okTrue wAllDone wBuildNode
        = { wAllDone with
            status := setStatus wAllDone.status wBuildNode.id Status.done } := by
  refine ⟨by decide, ?_⟩
  exact build_task_pure_aggregation.2.2 okTrue wAllDone wBuildNode (by decide)
    (fun p _ => rfl)

/-- Removing a list of targets one by one removes exactly those
targets' files and build state entries, and touches nothing else. -/
theorem cleanStep_foldl (ts : List String) :
    ∀ (a : Fs × BuildState) (p : String),
    ((ts.foldl cleanStep a).1.present p
        = if p ∈ ts then false else a.1.present p)
    ∧ ((ts.foldl cleanStep a).2 p = if p ∈ ts then none else a.2 p)
    ∧ (ts.foldl cleanStep a).1.version = a.1.version := by
  induction ts with
  | nil => intro a p; simp
  | cons t ts ih =>
    intro a p
    rcases ih (cleanStep a t) p with ⟨h1, h2, h3⟩
    refine ⟨?_, ?_, ?_⟩
    · rw [List.foldl_cons, h1]
      by_cases hts : p ∈ ts
      · simp [hts]
      · by_cases hpt : p = t <;> simp [cleanStep, hts, hpt]
    · rw [List.foldl_cons, h2]
      by_cases hts : p ∈ ts
      · simp [hts]
      · by_cases hpt : p = t <;> simp [cleanStep, hts, hpt]
    · rw [List.foldl_cons, h3]; rfl

/-- Folding target removal over a list of nodes removes exactly the
union of their declared targets. -/
theorem cleanNodes_foldl (L : List BNode) :
    ∀ (a : Fs × BuildState) (p : String),
    ((L.foldl (fun acc n => n.targets.foldl cleanStep acc) a).1.present p
        = if p ∈ L.flatMap (fun n => n.targets) then false else a.1.present p)
    ∧ ((L.foldl (fun acc n => n.targets.foldl cleanStep acc) a).2 p
        = if p ∈ L.flatMap (fun n => n.targets) then none else a.2 p)
    ∧ (L.foldl (fun acc n => n.targets.foldl cleanStep acc) a).1.version
        = a.1.version := by
  induction L with
  | nil => intro a p; simp
  | cons n L ih =>
    intro a p
    rcases ih (n.targets.foldl cleanStep a) p with ⟨h1, h2, h3⟩
    rcases cleanStep_foldl n.targets a p with ⟨g1, g2, g3⟩
    refine ⟨?_, ?_, ?_⟩
    · rw [List.foldl_cons, h1, g1]
      by_cases hL : p ∈ L.flatMap (fun n => n.targets)
      · simp [hL]
      · by_cases hn : p ∈ n.targets <;> simp [hL, hn]
    · rw [List.foldl_cons, h2, g2]
      by_cases hL : p ∈ L.flatMap (fun n => n.targets)
      · simp [hL]
      · by_cases hn : p ∈ n.targets <;> simp [hL, hn]
    · rw [List.foldl_cons, h3, g3]

/-- C3: clean removes exactly the declared targets of the named tasks
and deletes exactly those targets' build state entries; files and build
state of tasks not named, and all file contents, are unchanged. -/
theorem clean_removes_exactly_named (names : List String) (nodes : List BNode)
    (fs : Fs) (st : BuildState) (p : String) :
    ((clean names nodes fs st).1.present p
        = if p ∈ cleanTargets names nodes then false else fs.present p)
    ∧ ((clean names nodes fs st).2 p
        = if p ∈ cleanTargets names nodes then none else st p)
    ∧ (clean names nodes fs st).1.version = fs.version := by
  unfold clean cleanTargets
  exact cleanNodes_foldl _ (fs, st) p

/-- One generator step of task_pages on an entry with a supported
source suffix: the entry's own sub-task is yielded and the generator
continues with the remaining entries. -/
theorem pagesRun_cons_valid (e : Entry) (rest : List Entry)
    (h : pathSuffix e.src = ".html" ∨ pathSuffix e.src = ".rst") :
    pagesRun (e :: rest)
      = ((pageSubTask e).toList ++ (pagesRun rest).1, (pagesRun rest).2) := by
  rcases h with h | h
  · simp [pagesRun, pageSubTask, h]
  · have h2 : pathSuffix e.src ≠ ".html" := by rw [h]; decide
    simp [pagesRun, pageSubTask, h, h2]

/-- One generator step of task_pages on an entry with an unsupported
source suffix: the exception is raised, so nothing is yielded for it
and the remaining entries are never reached. -/
theorem pagesRun_cons_bad (e : Entry) (rest : List Entry)
    (h1 : pathSuffix e.src ≠ ".html") (h2 : pathSuffix e.src ≠ ".rst") :
    pagesRun (e :: rest) = ([], some "unsupported entry source") := by
  simp [pagesRun, h1, h2]

/-- A valid entry's sub-task exists. -/
theorem pageSubTask_isSome (e : Entry)
    (h : pathSuffix e.src = ".html" ∨ pathSuffix e.src = ".rst") :
    (pageSubTask e).isSome = true := by
  rcases h with h | h
  · simp [pageSubTask, h]
  · have h2 : pathSuffix e.src ≠ ".html" := by rw [h]; decide
    simp [pageSubTask, h, h2]

theorem option_toList_map_some {α : Type} (o : Option α) (h : o.isSome = true) :
    o.toList.map some = [o] := by
  cases o
  · cases h
  · rfl

/-- Folding cons over a list is mapping. -/
theorem foldr_cons_eq_map {α β : Type} (f : α → β) (l : List α) :
    l.foldr (fun x acc => f x :: acc) [] = l.map f := by
  induction l with
  | nil => rfl
  | cons x xs ih => simp [ih]

/-- C5: expanding a generator task produces exactly one sub-task per
configuration entry (pages, when every entry has a supported source
suffix) and per source mapping (sass, static), the sub-task of each
item being a function of that item alone — so each carries its own
name, actions, targets and dependencies, independent of its sibling
sub-tasks — and the pages generator finishes without error. -/
theorem generators_one_subtask_per_item (entries : List Entry)
    (scss : List String) (statics : List (String × Bool))
    (hvalid : ∀ e ∈ entries,
      pathSuffix e.src = ".html" ∨ pathSuffix e.src = ".rst") :
    (pagesRun entries).1.map some = entries.map pageSubTask
    ∧ (pagesRun entries).2 = none
    ∧ task_sass scss = (scssMappings scss).map sassSubTask
    ∧ task_static statics = (staticMappings statics).map staticSubTask := by
  refine ⟨?_, ?_, foldr_cons_eq_map _ _, foldr_cons_eq_map _ _⟩
  · induction entries with
    | nil => rfl
    | cons e rest ih =>
      have hv := hvalid e (List.mem_cons_self e rest)
      rw [pagesRun_cons_valid e rest hv]
      simp only [List.map_cons, List.map_append]
      rw [option_toList_map_some _ (pageSubTask_isSome e hv)]
      rw [ih (fun x hx => hvalid x (List.mem_cons_of_mem e hx))]
      rfl
  · induction entries with
    | nil => rfl
    | cons e rest ih =>
      have hv := hvalid e (List.mem_cons_self e rest)
      rw [pagesRun_cons_valid e rest hv]
      exact ih (fun x hx => hvalid x (List.mem_cons_of_mem e hx))

/-- Witness for C5 on the concrete configuration: two entries give two
sub-tasks and no error, and the sass generator yields one sub-task per
mapping. -/
theorem generators_one_subtask_per_item_witness :
    (pagesRun wConf.entries).1.map some = wConf.entries.map pageSubTask
    ∧ (pagesRun wConf.entries).2 = none
    ∧ task_sass ["main.scss"] = (scssMappings ["main.scss"]).map sassSubTask
    ∧ (pagesRun wConf.entries).1.length = 2 :=
  have h := generators_one_subtask_per_item wConf.entries ["main.scss"]
    [("img/x.png", false)] (by decide)
  ⟨h.1, h.2.1, h.2.2.1, by decide⟩

/-- C9: as soon as the pages generator reaches an entry whose source
suffix is neither '.html' nor '.rst' it raises; the sub-tasks yielded
are exactly those of the preceding entries, nothing is yielded for the
offending entry, and the entries after it are never expanded (the
result does not depend on them). -/
theorem pages_expansion_stops_at_bad_entry (good : List Entry) (bad : Entry)
    (rest : List Entry)
    (hgood : ∀ e ∈ good, pathSuffix e.src = ".html" ∨ pathSuffix e.src = ".rst")
    (hbad1 : pathSuffix bad.src ≠ ".html") (hbad2 : pathSuffix bad.src ≠ ".rst") :
    (pagesRun (good ++ bad :: rest)).2 = some "unsupported entry source"
    ∧ (pagesRun (good ++ bad :: rest)).1.map some = good.map pageSubTask
    ∧ pagesRun (good ++ bad :: rest) = pagesRun (good ++ [bad]) := by
  induction good with
  | nil =>
    rw [List.nil_append, pagesRun_cons_bad bad rest hbad1 hbad2]
    rw [List.nil_append, pagesRun_cons_bad bad [] hbad1 hbad2]
    exact ⟨rfl, rfl, rfl⟩
  | cons e g ih =>
    have hv := hgood e (List.mem_cons_self e g)
    have ih2 := ih (fun x hx => hgood x (List.mem_cons_of_mem e hx))
    rw [List.cons_append, pagesRun_cons_valid e (g ++ bad :: rest) hv,
      List.cons_append, pagesRun_cons_valid e (g ++ [bad]) hv]
    refine ⟨ih2.1, ?_, ?_⟩
    · simp only [List.map_cons, List.map_append]
      rw [option_toList_map_some _ (pageSubTask_isSome e hv), ih2.2.1]
      rfl
    · rw [ih2.2.2]

/-- Witness for C9: a bad entry in the middle stops the expansion after
the sub-task of the first entry, regardless of the entry after it. -/
theorem pages_expansion_stops_at_bad_entry_witness :
    (pagesRun [wEntryA, wEntryBad, wEntryB]).2 = some "unsupported entry source"
    ∧ (pagesRun [wEntryA, wEntryBad, wEntryB]).1.map some = [wEntryA].map pageSubTask
    ∧ pagesRun [wEntryA, wEntryBad, wEntryB] = pagesRun [wEntryA, wEntryBad] :=
  have h := pages_expansion_stops_at_bad_entry [wEntryA] wEntryBad [wEntryB]
    (by decide) (by decide) (by decide)
  ⟨h.1, h.2.1, h.2.2⟩

/-- C10: the sass task yields exactly one sub-task per file under
src_scss whose name matches '*.scss' and does not start with an
underscore; its sole declared target is the file's relative path placed
under the build directory with the suffix replaced by '.css', and
underscore-prefixed files yield nothing. -/
theorem sass_one_subtask_per_scss_file (files : List String) :
    task_sass files = files.filterMap (fun rel =>
      if endsWithS (pathName rel) ".scss" = true
          ∧ startsWithS (pathName rel) "_" = false then
        some { name := joinP build_dir (withSuffix rel ".css")
               actions := [PAction.buildScss (joinP src_scss_dir rel)
                             (joinP build_dir (withSuffix rel ".css"))]
               targets := [joinP build_dir (withSuffix rel ".css")]
               task_dep := ["deps"] }
      else none) := by
  rw [(generators_one_subtask_per_item [] files [] (by simp)).2.2.1]
  induction files with
  | nil => rfl
  | cons rel rest ih =>
    have step : scssMappings (rel :: rest)
        = if endsWithS (pathName rel) ".scss" then
            (if startsWithS (pathName rel) "_" then scssMappings rest
             else (joinP src_scss_dir rel, joinP build_dir (withSuffix rel ".css"))
                    :: scssMappings rest)
          else scssMappings rest := rfl
    rw [step, List.filterMap_cons]
    by_cases h1 : endsWithS (pathName rel) ".scss" = true
    · by_cases h2 : startsWithS (pathName rel) "_" = true
      · have h2f : ¬(endsWithS (pathName rel) ".scss" = true
            ∧ startsWithS (pathName rel) "_" = false) := by
          rintro ⟨-, hh⟩; rw [h2] at hh; cases hh
        rw [if_pos h1, if_pos h2, if_neg h2f]
        exact ih
      · have h2f : startsWithS (pathName rel) "_" = false :=
          Bool.eq_false_iff.mpr h2
        rw [if_pos h1, if_neg h2, if_pos ⟨h1, h2f⟩]
        simp only [List.map_cons]
        rw [ih]
        rfl
    · have h1f : ¬(endsWithS (pathName rel) ".scss" = true
          ∧ startsWithS (pathName rel) "_" = false) := fun hh => h1 hh.1
      rw [if_neg h1, if_neg h1f]
      exact ih

/-- The values compared against the running `updated` are exactly the
published/updated values of the entries with a published key. -/
theorem pubVals_eq_flatMap_foldVals (c : Conf) :
    pubVals c = c.entries.flatMap foldVals := by
  unfold pubVals includedEntries
  induction c.entries with
  | nil => rfl
  | cons i rest ih =>
    cases hi : i.published with
    | none => simp [foldVals, hi, List.filter_cons, ih]
    | some p => simp [foldVals, hi, List.filter_cons, ih]

/-- The lexicographic comparison agrees with the order on strings. -/
theorem strLtB_iff : ∀ (as bs : List Char), strLtB as bs = true ↔ as < bs
  | [], [] => by
    simp only [strLtB]
    constructor
    · intro h; cases h
    · intro h; cases h
  | [], b :: bs => by
    simp only [strLtB]
    constructor
    · intro _; exact List.Lex.nil
    · intro _; trivial
  | a :: as, [] => by
    simp only [strLtB]
    constructor
    · intro h; cases h
    · intro h; cases h
  | a :: as, b :: bs => by
    simp only [strLtB]
    by_cases hab : a < b
    · simp only [if_pos hab]
      constructor
      · intro _; exact List.Lex.rel hab
      · intro _; trivial
    · by_cases hba : b < a
      · simp only [if_neg hab, if_pos hba]
        constructor
        · intro h; cases h
        · intro h
          cases h with
          | cons _ => exact absurd hba (lt_irrefl _)
          | rel h => exact absurd h hab
      · simp only [if_neg hab, if_neg hba]
        have heq : a = b := le_antisymm (le_of_not_lt hba) (le_of_not_lt hab)
        subst heq
        rw [strLtB_iff as bs]
        constructor
        · intro h; exact List.Lex.cons h
        · intro h
          cases h with
          | cons h => exact h
          | rel h => exact absurd h hab

theorem strLt_iff (a b : String) : strLt a b = true ↔ a < b := by
  unfold strLt
  rw [strLtB_iff, String.lt_iff_toList_lt]

/-- The comparison step of _build_feed is the maximum step. -/
theorem stepMax_eq (a v : String) :
    (if strLt a v then v else a) = if a < v then v else a := by
  by_cases h : a < v
  · rw [if_pos ((strLt_iff a v).mpr h), if_pos h]
  · rw [if_neg (fun hh => h ((strLt_iff a v).mp hh)), if_neg h]

theorem foldl_stepMax (l : List String) :
    ∀ a : String,
    l.foldl (fun x v => if strLt x v then v else x) a
      = l.foldl (fun x v => if x < v then v else x) a := by
  induction l with
  | nil => intro a; rfl
  | cons v rest ih =>
    intro a
    rw [List.foldl_cons, List.foldl_cons, stepMax_eq]
    exact ih _

/-- The loop of _build_feed computes the running maximum of the
compared values and appends one entry string per included entry, in
order. -/
theorem feedFold_eq (c : Conf) (co : String → String) :
    ∀ (l : List Entry) (u : String) (acc : List String),
    feedFold c co l u acc
      = ((l.flatMap foldVals).foldl (fun a v => if strLt a v then v else a) u,
         acc ++ (l.filter (fun i => i.published.isSome)).map
           (fun i => feedEntryStr c co i (i.published.getD ""))) := by
  intro l
  induction l with
  | nil => intro u acc; simp [feedFold]
  | cons i rest ih =>
    intro u acc
    cases hi : i.published with
    | none => simp [feedFold, hi, foldVals, List.filter_cons, ih]
    | some p =>
      cases hu : i.updated with
      | none => simp [feedFold, hi, hu, foldVals, List.filter_cons, ih]
      | some up => simp [feedFold, hi, hu, foldVals, List.filter_cons, ih]

/-- The running-maximum fold returns its seed or an element of the
list. -/
theorem foldMax_mem (l : List String) :
    ∀ a : String,
    l.foldl (fun x v => if x < v then v else x) a = a
    ∨ l.foldl (fun x v => if x < v then v else x) a ∈ l := by
  induction l with
  | nil => intro a; exact Or.inl rfl
  | cons v rest ih =>
    intro a
    rcases ih (if a < v then v else a) with h | h
    · rw [List.foldl_cons, h]
      by_cases hav : a < v
      · rw [if_pos hav]; exact Or.inr (List.mem_cons_self v rest)
      · rw [if_neg hav]; exact Or.inl rfl
    · exact Or.inr (List.mem_cons_of_mem v h)

/-- The running-maximum fold dominates its seed and every element. -/
theorem foldMax_ub (l : List String) :
    ∀ a : String,
    a ≤ l.foldl (fun x v => if x < v then v else x) a
    ∧ ∀ w ∈ l, w ≤ l.foldl (fun x v => if x < v then v else x) a := by
  induction l with
  | nil => intro a; exact ⟨le_refl a, fun w hw => absurd hw (List.not_mem_nil w)⟩
  | cons v rest ih =>
    intro a
    rcases ih (if a < v then v else a) with ⟨h1, h2⟩
    have hstep : a ≤ if a < v then v else a := by
      by_cases hav : a < v
      · rw [if_pos hav]; exact le_of_lt hav
      · rw [if_neg hav]
    have hstepv : v ≤ if a < v then v else a := by
      by_cases hav : a < v
      · rw [if_pos hav]
      · rw [if_neg hav]; exact le_of_not_lt hav
    refine ⟨le_trans hstep h1, ?_⟩
    intro w hw
    rcases List.mem_cons.mp hw with hwv | hwr
    · rw [List.foldl_cons]; exact le_trans (hwv ▸ hstepv) h1
    · rw [List.foldl_cons]; exact h2 w hwr

/-- The empty string is the least string. -/
theorem empty_string_le (s : String) : "" ≤ s :=
  String.le_iff_toList_le.mpr List.nil_le

/-- C8: the feed contains exactly one entry string per configuration
entry with a published key, in configuration order, and the feed's
top-level updated value is the lexicographically greatest among the
included entries' published and updated values — the empty string when
no entry is included. -/
theorem feed_entries_and_updated (c : Conf) (co : String → String) :
    (buildFeedResult c co).2
      = (includedEntries c).map (fun i => feedEntryStr c co i (i.published.getD ""))
    ∧ (buildFeedResult c co).1 = lexMax (pubVals c)
    ∧ (∀ v ∈ pubVals c, v ≤ (buildFeedResult c co).1)
    ∧ (includedEntries c = [] → (buildFeedResult c co).1 = "")
    ∧ (includedEntries c ≠ [] → (buildFeedResult c co).1 ∈ pubVals c) := by
  have hmain := feedFold_eq c co c.entries "" []
  have h2 : (buildFeedResult c co).2
      = (includedEntries c).map (fun i => feedEntryStr c co i (i.published.getD "")) := by
    unfold buildFeedResult includedEntries
    rw [hmain]
    simp
  have h1 : (buildFeedResult c co).1 = lexMax (pubVals c) := by
    unfold buildFeedResult lexMax
    rw [hmain, pubVals_eq_flatMap_foldVals]
  have hlm : lexMax (pubVals c)
      = (pubVals c).foldl (fun x v => if x < v then v else x) "" := by
    unfold lexMax
    exact foldl_stepMax (pubVals c) ""
  have hub : ∀ v ∈ pubVals c, v ≤ (buildFeedResult c co).1 := by
    intro v hv
    rw [h1, hlm]
    exact (foldMax_ub (pubVals c) "").2 v hv
  refine ⟨h2, h1, hub, ?_, ?_⟩
  · intro hempty
    rw [h1]
    have : pubVals c = [] := by unfold pubVals; rw [hempty]; rfl
    rw [this]
    rfl
  · intro hne
    rcases List.exists_mem_of_ne_nil _ hne with ⟨i, hi⟩
    have hisome : i.published.isSome = true :=
      (List.mem_filter.mp hi).2
    rcases Option.isSome_iff_exists.mp hisome with ⟨p, hp⟩
    have hpv : p ∈ pubVals c := by
      unfold pubVals
      refine List.mem_flatMap.mpr ⟨i, hi, ?_⟩
      rw [hp]
      exact List.mem_append_left _ (List.mem_singleton.mpr rfl)
    rcases foldMax_mem (pubVals c) "" with h | h
    · have hres : (buildFeedResult c co).1 = "" := by
        rw [h1, hlm]
        exact h
      have hple : p ≤ "" := by
        have := hub p hpv
        rw [hres] at this
        exact this
      have hpeq : p = "" := le_antisymm hple (empty_string_le p)
      rw [hres, ← hpeq]
      exact hpv
    · rw [h1, hlm]
      exact h

/-- Witness for C8 on the concrete configuration: one of the two
entries is included, the updated value is the greatest timestamp and it
occurs among the compared values. -/
theorem feed_entries_and_updated_witness :
    (buildFeedResult wConf wContent).1 = "2024-03-04"
    ∧ (buildFeedResult wConf wContent).1 ∈ pubVals wConf
    ∧ (buildFeedResult wConf wContent).2.length = 1 := by
  have h := feed_entries_and_updated wConf wContent
  refine ⟨?_, h.2.2.2.2 (by decide), ?_⟩
  · rw [h.2.1]; decide
  · rw [h.1]; decide

/-- Unfolding the invoker on the first action. -/
theorem invoke_cons (a : PAction) (rest : List PAction) (w : WFs) :
    invoke (a :: rest) w
      = match applyAction a w with
        | Except.error e => (w, ActStatus.failed e)
        | Except.ok w2 => invoke rest w2 := rfl

/-- Sequencing a successful prefix of actions reaches the intermediate
world, and the invoker continues from it. -/
theorem invoke_append_ok (pre : List PAction) :
    ∀ (rest : List PAction) (w w1 : WFs),
    applyAll pre w = Except.ok w1 →
    invoke (pre ++ rest) w = invoke rest w1 := by
  induction pre with
  | nil =>
    intro rest w w1 h
    cases h
    rfl
  | cons a pre ih =>
    intro rest w w1 h
    rw [List.cons_append, invoke_cons]
    unfold applyAll at h
    cases ha : applyAction a w with
    | error e => rw [ha] at h; cases h
    | ok w2 => rw [ha] at h; exact ih rest w2 w1 h

/-- C6: a node's actions execute strictly in declared order, and the
first action that raises aborts the remaining actions: with the
successful prefix applied in order to reach an intermediate world, a
failing action there makes the invoker stop in that world with the node
failed on the captured error, the actions after the failing one never
executing (the result does not depend on them). -/
theorem actions_in_order_first_error_aborts (acts pre : List PAction)
    (bad : PAction) (post : List PAction) (w w1 : WFs) (e : String)
    (hacts : acts = pre ++ bad :: post)
    (hpre : applyAll pre w = Except.ok w1)
    (hbad : applyAction bad w1 = Except.error e) :
    invoke acts w = (w1, ActStatus.failed e)
    ∧ invoke acts w = invoke (pre ++ [bad]) w := by
  have h1 : invoke acts w = (w1, ActStatus.failed e) := by
    rw [hacts, invoke_append_ok pre (bad :: post) w w1 hpre, invoke_cons, hbad]
  have h2 : invoke (pre ++ [bad]) w = (w1, ActStatus.failed e) := by
    rw [invoke_append_ok pre [bad] w w1 hpre, invoke_cons, hbad]
  exact ⟨h1, h1.trans h2.symm⟩

/-- Witness for C6: the static sub-task's first action (creating the
destination directory) succeeds, its second (copying a missing source
file) fails, and the node ends failed with the copy error, the
directory already created. -/
theorem actions_in_order_first_error_aborts_witness :
    wStaticSub.actions
      = [PAction.mkdirParents "build/img",
         PAction.copy2 "src_static/img/x.png" "build/img/x.png"]
    ∧ invoke wStaticSub.actions ⟨[], []⟩
      = (⟨["build", "build/img"], []⟩,
         ActStatus.failed "No such file or directory: src_static/img/x.png") := by
  refine ⟨by decide, ?_⟩
  exact (actions_in_order_first_error_aborts wStaticSub.actions
    [PAction.mkdirParents "build/img"]
    (PAction.copy2 "src_static/img/x.png" "build/img/x.png") []
    ⟨[], []⟩ ⟨["build", "build/img"], []⟩
    "No such file or directory: src_static/img/x.png"
    (by rfl) (by rfl) (by rfl)).1

/-- Recording one more done status keeps all statuses good. -/
theorem goodStatuses_set (st : String → Option Status) (hgs : GoodStatuses st)
    (i : String) : GoodStatuses (setStatus st i Status.done) := by
  intro p
  unfold setStatus
  by_cases h : p = i
  · rw [if_pos h]; exact Or.inr rfl
  · rw [if_neg h]; exact hgs p

/-- While all statuses are good, no node is skipped. -/
theorem no_skip_of_good (rs : RunState) (n : BNode) (hgs : GoodStatuses rs.status) :
    ¬∃ p ∈ n.preds, rs.status p = some Status.failed
      ∨ rs.status p = some Status.skipped := by
  rintro ⟨p, -, hor⟩
  rcases hgs p with h0 | h0 <;> rw [h0] at hor <;> rcases hor with h | h <;> simp at h

/-- Processing a stale node with actions under the all-success oracle
executes it: targets become present, their fingerprints are recorded,
the node is appended to the ran list and its status is done. -/
theorem processNode_okTrue_run (rs : RunState) (n : BNode)
    (hgs : GoodStatuses rs.status)
    (hs : isStale n rs.fs rs.st rs.ran = true) (ha : n.hasActions = true) :
    processNode okTrue rs n
      = { fs := execFs n rs.fs, st := execSt n rs.fs rs.st
          ran := rs.ran ++ [n.id]
          status := setStatus rs.status n.id Status.done } := by
  unfold processNode
  rw [if_neg (no_skip_of_good rs n hgs), if_pos ⟨hs, ha⟩,
    if_pos (show okTrue n.id = true from rfl)]

/-- Processing a node that is not both stale and action-bearing leaves
everything unchanged except that its status becomes done. -/
theorem processNode_okTrue_done (rs : RunState) (n : BNode)
    (hgs : GoodStatuses rs.status)
    (h : ¬(isStale n rs.fs rs.st rs.ran = true ∧ n.hasActions = true)) :
    processNode okTrue rs n
      = { rs with status := setStatus rs.status n.id Status.done } := by
  unfold processNode
  rw [if_neg (no_skip_of_good rs n hgs), if_neg h]

/-- Unfolding the affected set computation on the first node. -/
theorem affectedFrom_cons (f : String) (n : BNode) (rest : List BNode)
    (acc : List String) :
    affectedFrom f (n :: rest) acc
      = affectedFrom f rest
          (if n.hasActions = true ∧ (f ∈ n.fileDeps ∨ ∃ p ∈ n.preds, p ∈ acc)
           then acc ++ [n.id] else acc) := rfl

/-- Bumping one file's version changes a fingerprint exactly when the
file is among the inputs. -/
theorem mapBump_eq_iff (v0 : String → Nat) (f : String) (l : List String) :
    l.map (bumpV f v0) = l.map v0 ↔ f ∉ l := by
  induction l with
  | nil => simp
  | cons x xs ih =>
    simp only [List.map_cons, List.cons.injEq, List.mem_cons]
    by_cases hx : x = f
    · constructor
      · rintro ⟨h1, -⟩
        unfold bumpV at h1
        rw [if_pos hx] at h1
        rw [hx] at h1
        exact absurd h1 (Nat.succ_ne_self _)
      · intro h
        exact absurd (Or.inl hx.symm) h
    · constructor
      · rintro ⟨-, h2⟩ (h | h)
        · exact hx h.symm
        · exact (ih.mp h2) h
      · intro h
        refine ⟨?_, ih.mpr (fun hf => h (Or.inr hf))⟩
        unfold bumpV
        rw [if_neg hx]

/-- A run under the all-success oracle keeps file versions fixed and
statuses good, only adds target files, touches the build state of no
path outside the processed nodes' targets, and leaves every processed
node consistent: its targets are present and record its fingerprint. -/
theorem runFold_establishes (v0 : String → Nat) :
    ∀ (rest : List BNode) (rs : RunState),
    rs.fs.version = v0 →
    GoodStatuses rs.status →
    rest.Pairwise TargetsDisjoint →
    (∀ n ∈ rest, n.hasActions = false → n.targets = []) →
    (rest.foldl (processNode okTrue) rs).fs.version = v0
    ∧ GoodStatuses (rest.foldl (processNode okTrue) rs).status
    ∧ (∀ t, rs.fs.present t = true
        → (rest.foldl (processNode okTrue) rs).fs.present t = true)
    ∧ (∀ t, (∀ m ∈ rest, t ∉ m.targets) →
        (rest.foldl (processNode okTrue) rs).st t = rs.st t
        ∧ (rest.foldl (processNode okTrue) rs).fs.present t = rs.fs.present t)
    ∧ (∀ n ∈ rest, ∀ t ∈ n.targets,
        (rest.foldl (processNode okTrue) rs).fs.present t = true
        ∧ (rest.foldl (processNode okTrue) rs).st t = some (n.fileDeps.map v0)) := by
  intro rest
  induction rest with
  | nil =>
    intro rs hver hgs _ _
    exact ⟨hver, hgs, fun t ht => ht, fun t _ => ⟨rfl, rfl⟩,
      fun n hn => absurd hn (List.not_mem_nil n)⟩
  | cons n rest ih =>
    intro rs hver hgs hpw hmeta
    have hpw2 := List.pairwise_cons.mp hpw
    by_cases hrun : isStale n rs.fs rs.st rs.ran = true ∧ n.hasActions = true
    · have hstep := processNode_okTrue_run rs n hgs hrun.1 hrun.2
      rw [List.foldl_cons, hstep]
      obtain ⟨ihver, ihgs, ihmono, ihframe, ihcons⟩ :=
        ih { fs := execFs n rs.fs, st := execSt n rs.fs rs.st
             ran := rs.ran ++ [n.id]
             status := setStatus rs.status n.id Status.done }
          hver (goodStatuses_set rs.status hgs n.id) hpw2.2
          (fun m hm => hmeta m (List.mem_cons_of_mem n hm))
      refine ⟨ihver, ihgs, ?_, ?_, ?_⟩
      · intro t ht
        apply ihmono
        show (execFs n rs.fs).present t = true
        unfold execFs
        by_cases hmem : t ∈ n.targets
        · simp [hmem]
        · simp [hmem, ht]
      · intro t hnot
        have htn : t ∉ n.targets := hnot n (List.mem_cons_self n rest)
        obtain ⟨hf1, hf2⟩ :=
          ihframe t (fun m hm => hnot m (List.mem_cons_of_mem n hm))
        constructor
        · rw [hf1]
          show execSt n rs.fs rs.st t = rs.st t
          simp [execSt, htn]
        · rw [hf2]
          show (execFs n rs.fs).present t = rs.fs.present t
          simp [execFs, htn]
      · intro m hm t htm
        rcases List.mem_cons.mp hm with hmn | hmr
        · subst hmn
          have hdisj2 : ∀ q ∈ rest, t ∉ q.targets := by
            intro q hq
            exact hpw2.1 q hq t htm
          obtain ⟨hf1, hf2⟩ := ihframe t hdisj2
          constructor
          · rw [hf2]
            show (execFs m rs.fs).present t = true
            simp [execFs, htm]
          · rw [hf1]
            show execSt m rs.fs rs.st t = some (m.fileDeps.map v0)
            simp [execSt, htm, fingerprint, hver]
        · exact ihcons m hmr t htm
    · have hstep := processNode_okTrue_done rs n hgs hrun
      rw [List.foldl_cons, hstep]
      obtain ⟨ihver, ihgs, ihmono, ihframe, ihcons⟩ :=
        ih { rs with status := setStatus rs.status n.id Status.done }
          hver (goodStatuses_set rs.status hgs n.id) hpw2.2
          (fun m hm => hmeta m (List.mem_cons_of_mem n hm))
      refine ⟨ihver, ihgs, ihmono, ?_, ?_⟩
      · intro t hnot
        exact ihframe t (fun m hm => hnot m (List.mem_cons_of_mem n hm))
      · intro m hm t htm
        rcases List.mem_cons.mp hm with hmn | hmr
        · subst hmn
          by_cases hA : m.hasActions = true
          · have hstale : isStale m rs.fs rs.st rs.ran = false :=
              Bool.eq_false_iff.mpr (fun hs => hrun ⟨hs, hA⟩)
            simp only [isStale, Bool.or_eq_false_iff,
              decide_eq_false_iff_not] at hstale
            obtain ⟨⟨hst1, hst2⟩, -⟩ := hstale
            push_neg at hst1 hst2
            have hpres : rs.fs.present t = true := by
              have := hst1 t htm
              cases hb : rs.fs.present t
              · exact absurd hb this
              · rfl
            have hrec : rs.st t = some (m.fileDeps.map v0) := by
              have := hst2 t htm
              unfold fingerprint at this
              rw [hver] at this
              exact this
            have hdisj2 : ∀ q ∈ rest, t ∉ q.targets := by
              intro q hq
              exact hpw2.1 q hq t htm
            obtain ⟨hf1, hf2⟩ := ihframe t hdisj2
            exact ⟨by rw [hf2]; exact hpres, by rw [hf1]; exact hrec⟩
          · have ht0 : m.targets = [] :=
              hmeta m (List.mem_cons_self m rest) (Bool.eq_false_iff.mpr hA)
            rw [ht0] at htm
            exact absurd htm (List.not_mem_nil t)
        · exact ihcons m hmr t htm

/-- A run starting from a consistent state executes nothing: every node
evaluates not-stale, and file system and build state are untouched. -/
theorem runFold_noop :
    ∀ (rest : List BNode) (rs : RunState),
    GoodStatuses rs.status →
    rs.ran = [] →
    (∀ n ∈ rest, ∀ t ∈ n.targets,
      rs.fs.present t = true ∧ rs.st t = some (fingerprint n rs.fs)) →
    (rest.foldl (processNode okTrue) rs).ran = []
    ∧ (rest.foldl (processNode okTrue) rs).fs = rs.fs
    ∧ (rest.foldl (processNode okTrue) rs).st = rs.st
    ∧ (∀ n ∈ rest, isStale n rs.fs rs.st [] = false) := by
  intro rest
  induction rest with
  | nil =>
    intro rs _ hran _
    exact ⟨hran, rfl, rfl, fun n hn => absurd hn (List.not_mem_nil n)⟩
  | cons n rest ih =>
    intro rs hgs hran hcons
    have hstale : isStale n rs.fs rs.st rs.ran = false := by
      simp only [isStale, Bool.or_eq_false_iff, decide_eq_false_iff_not]
      refine ⟨⟨?_, ?_⟩, ?_⟩
      · rintro ⟨t, ht, hf⟩
        rw [(hcons n (List.mem_cons_self n rest) t ht).1] at hf
        cases hf
      · rintro ⟨t, ht, hne⟩
        exact hne (hcons n (List.mem_cons_self n rest) t ht).2
      · rintro ⟨p, -, hp⟩
        rw [hran] at hp
        exact absurd hp (List.not_mem_nil p)
    have hnotrun : ¬(isStale n rs.fs rs.st rs.ran = true ∧ n.hasActions = true) := by
      rintro ⟨hs, -⟩
      rw [hstale] at hs
      cases hs
    have hstep := processNode_okTrue_done rs n hgs hnotrun
    rw [List.foldl_cons, hstep]
    obtain ⟨i1, i2, i3, i4⟩ :=
      ih { rs with status := setStatus rs.status n.id Status.done }
        (goodStatuses_set rs.status hgs n.id) hran
        (fun m hm => hcons m (List.mem_cons_of_mem n hm))
    refine ⟨i1, i2, i3, ?_⟩
    intro m hm
    rcases List.mem_cons.mp hm with hmn | hmr
    · subst hmn
      rw [← hran]
      exact hstale
    · exact i4 m hmr

/-- After one leaf file's version is bumped over a consistent state, a
run under the all-success oracle executes exactly the nodes collected
by the affected-set computation: those with actions that depend on the
file directly or through a predecessor that ran. -/
theorem runFold_lockstep (v0 : String → Nat) (f : String) :
    ∀ (rest : List BNode) (rs : RunState),
    rs.fs.version = bumpV f v0 →
    GoodStatuses rs.status →
    rest.Pairwise TargetsDisjoint →
    (∀ n ∈ rest, n.hasActions = false → n.targets = []) →
    (∀ n ∈ rest, n.targets = [] → n.fileDeps = []) →
    (∀ n ∈ rest, ∀ t ∈ n.targets, rs.fs.present t = true) →
    (∀ n ∈ rest, ∀ t ∈ n.targets, rs.st t = some (n.fileDeps.map v0)) →
    (rest.foldl (processNode okTrue) rs).ran = affectedFrom f rest rs.ran := by
  intro rest
  induction rest with
  | nil => intro rs _ _ _ _ _ _ _; rfl
  | cons n rest ih =>
    intro rs hver hgs hpw hmeta hnt hex hst
    have hpw2 := List.pairwise_cons.mp hpw
    have hfp : fingerprint n rs.fs = n.fileDeps.map (bumpV f v0) := by
      unfold fingerprint
      rw [hver]
    have hstale_iff : isStale n rs.fs rs.st rs.ran = true
        ↔ (f ∈ n.fileDeps ∨ ∃ p ∈ n.preds, p ∈ rs.ran) := by
      simp only [isStale, Bool.or_eq_true, decide_eq_true_eq]
      constructor
      · rintro ((⟨t, ht, hf⟩ | ⟨t, ht, hne⟩) | hp)
        · rw [hex n (List.mem_cons_self n rest) t ht] at hf
          cases hf
        · left
          by_contra hfd
          apply hne
          rw [hst n (List.mem_cons_self n rest) t ht, hfp,
            (mapBump_eq_iff v0 f n.fileDeps).mpr hfd]
        · right; exact hp
      · rintro (hfd | hp)
        · have htne : n.targets ≠ [] := by
            intro h0
            have h1 := hnt n (List.mem_cons_self n rest) h0
            rw [h1] at hfd
            exact absurd hfd (List.not_mem_nil f)
          rcases List.exists_mem_of_ne_nil _ htne with ⟨t, ht⟩
          refine Or.inl (Or.inr ⟨t, ht, ?_⟩)
          rw [hst n (List.mem_cons_self n rest) t ht, hfp]
          intro hEq
          have h2 := Option.some.inj hEq
          exact ((mapBump_eq_iff v0 f n.fileDeps).mp h2.symm) hfd
        · exact Or.inr hp
    by_cases hcond : n.hasActions = true
        ∧ (f ∈ n.fileDeps ∨ ∃ p ∈ n.preds, p ∈ rs.ran)
    · have hstale := hstale_iff.mpr hcond.2
      have hstep := processNode_okTrue_run rs n hgs hstale hcond.1
      rw [List.foldl_cons, hstep, affectedFrom_cons, if_pos hcond]
      apply ih { fs := execFs n rs.fs, st := execSt n rs.fs rs.st
                 ran := rs.ran ++ [n.id]
                 status := setStatus rs.status n.id Status.done }
        hver (goodStatuses_set rs.status hgs n.id) hpw2.2
        (fun m hm => hmeta m (List.mem_cons_of_mem n hm))
        (fun m hm => hnt m (List.mem_cons_of_mem n hm))
      · intro m hm t ht
        show (execFs n rs.fs).present t = true
        by_cases hmem : t ∈ n.targets
        · simp [execFs, hmem]
        · simp [execFs, hmem]
          exact hex m (List.mem_cons_of_mem n hm) t ht
      · intro m hm t ht
        have htn : t ∉ n.targets := fun htn => (hpw2.1 m hm t htn) ht
        show execSt n rs.fs rs.st t = some (m.fileDeps.map v0)
        simp [execSt, htn]
        exact hst m (List.mem_cons_of_mem n hm) t ht
    · have hnrun : ¬(isStale n rs.fs rs.st rs.ran = true ∧ n.hasActions = true) := by
        rintro ⟨hs, hA⟩
        exact hcond ⟨hA, hstale_iff.mp hs⟩
      have hstep := processNode_okTrue_done rs n hgs hnrun
      rw [List.foldl_cons, hstep, affectedFrom_cons, if_neg hcond]
      exact ih { rs with status := setStatus rs.status n.id Status.done }
        hver (goodStatuses_set rs.status hgs n.id) hpw2.2
        (fun m hm => hmeta m (List.mem_cons_of_mem n hm))
        (fun m hm => hnt m (List.mem_cons_of_mem n hm))
        (fun m hm => hex m (List.mem_cons_of_mem n hm))
        (fun m hm => hst m (List.mem_cons_of_mem n hm))

/-- C2: running the build twice in succession on an unchanged source
tree performs zero actions on the second run — no node (including
nodes with no targets, such as the feed and deps nodes) executes, and
every node evaluates not-stale on the second run.  The hypotheses are
the structural invariants of every built graph: no two nodes share a
target and action-less nodes declare no targets. -/
theorem second_run_executes_nothing (nodes : List BNode) (fs0 : Fs)
    (st0 : BuildState)
    (hdisj : nodes.Pairwise TargetsDisjoint)
    (hmeta : ∀ n ∈ nodes, n.hasActions = false → n.targets = []) :
    (runNodes okTrue nodes (runNodes okTrue nodes fs0 st0).fs
        (runNodes okTrue nodes fs0 st0).st).ran = []
    ∧ ∀ n ∈ nodes, isStale n (runNodes okTrue nodes fs0 st0).fs
        (runNodes okTrue nodes fs0 st0).st [] = false := by
  obtain ⟨hver, -, -, -, hcons⟩ :=
    runFold_establishes fs0.version nodes ⟨fs0, st0, [], fun _ => none⟩
      rfl (fun _ => Or.inl rfl) hdisj hmeta
  have hcons2 : ∀ n ∈ nodes, ∀ t ∈ n.targets,
      (runNodes okTrue nodes fs0 st0).fs.present t = true
      ∧ (runNodes okTrue nodes fs0 st0).st t
          = some (fingerprint n (runNodes okTrue nodes fs0 st0).fs) := by
    intro n hn t ht
    obtain ⟨h1, h2⟩ := hcons n hn t ht
    unfold runNodes
    refine ⟨h1, ?_⟩
    rw [h2]
    unfold fingerprint
    rw [hver]
  obtain ⟨hb1, -, -, hb4⟩ :=
    runFold_noop nodes
      ⟨(runNodes okTrue nodes fs0 st0).fs, (runNodes okTrue nodes fs0 st0).st,
        [], fun _ => none⟩
      (fun _ => Or.inl rfl) rfl hcons2
  exact ⟨hb1, hb4⟩

/-- Witness for C2 on the concrete homepage graph: the second run over
the unchanged tree executes nothing, and in particular the feed and
deps nodes evaluate not-stale. -/
theorem second_run_executes_nothing_witness :
    (runNodes okTrue wNodes (runNodes okTrue wNodes wFs0 wSt0).fs
        (runNodes okTrue wNodes wFs0 wSt0).st).ran = []
    ∧ isStale wFeedNode (runNodes okTrue wNodes wFs0 wSt0).fs
        (runNodes okTrue wNodes wFs0 wSt0).st [] = false
    ∧ isStale wDepsNode (runNodes okTrue wNodes wFs0 wSt0).fs
        (runNodes okTrue wNodes wFs0 wSt0).st [] = false := by
  have h := second_run_executes_nothing wNodes wFs0 wSt0 (by decide) (by decide)
  exact ⟨h.1, h.2 wFeedNode (by decide), h.2 wDepsNode (by decide)⟩

/-- C1: when exactly one leaf source file (a file that is no node's
target) is modified between two runs, the second run executes exactly
the nodes reachable forward from the nodes depending on that file —
those with actions that either read the file or have a predecessor
that re-ran — and no other node. -/
theorem touching_one_leaf_reruns_exactly_dependents (nodes : List BNode)
    (fs0 : Fs) (st0 : BuildState) (f : String)
    (hdisj : nodes.Pairwise TargetsDisjoint)
    (hmeta : ∀ n ∈ nodes, n.hasActions = false → n.targets = [])
    (hnt : ∀ n ∈ nodes, n.targets = [] → n.fileDeps = [])
    (hleaf : ∀ n ∈ nodes, f ∉ n.targets) :
    (runNodes okTrue nodes (bumpFs f (runNodes okTrue nodes fs0 st0).fs)
        (runNodes okTrue nodes fs0 st0).st).ran = affected f nodes := by
  obtain ⟨hver, -, -, -, hcons⟩ :=
    runFold_establishes fs0.version nodes ⟨fs0, st0, [], fun _ => none⟩
      rfl (fun _ => Or.inl rfl) hdisj hmeta
  have hv : (bumpFs f (runNodes okTrue nodes fs0 st0).fs).version
      = bumpV f fs0.version := by
    show bumpV f (runNodes okTrue nodes fs0 st0).fs.version = bumpV f fs0.version
    unfold runNodes
    rw [hver]
  exact runFold_lockstep fs0.version f nodes
    ⟨bumpFs f (runNodes okTrue nodes fs0 st0).fs,
      (runNodes okTrue nodes fs0 st0).st, [], fun _ => none⟩
    hv (fun _ => Or.inl rfl) hdisj hmeta hnt
    (fun n hn t ht => (hcons n hn t ht).1)
    (fun n hn t ht => (hcons n hn t ht).2)

/-- Witness for C1 on the concrete homepage graph: touching the
reStructuredText source of the first page re-executes exactly that
page's node and the feed node. -/
theorem touching_one_leaf_reruns_exactly_dependents_witness :
    (runNodes okTrue wNodes
        (bumpFs "src_rst/a.rst" (runNodes okTrue wNodes wFs0 wSt0).fs)
        (runNodes okTrue wNodes wFs0 wSt0).st).ran
      = ["build/a.html", "feed"] := by
  have h := touching_one_leaf_reruns_exactly_dependents wNodes wFs0 wSt0
    "src_rst/a.rst" (by decide) (by decide) (by decide) (by decide)
  rw [h]
  decide

end Homepage
